import Mathlib

/-!
Shallow embedding of the cache/registry reconciliation core of the
`autostart` tool (src/main.go): the JSON cache data model, the cache CRUD
helpers (`findItemByName`, `addOrUpdateItem`, `removeItem`), the sync
algorithm (`syncCacheFromRegistry`), cache loading (`loadCache`), and the
registry-mutating operations together with their menu handlers
(`AddToStartup`, `AddCommandToStartup`, `RemoveFromStartup`,
`handleAddToStartup`, `handleEnable`, `handleDisable`,
`handleRemoveFromStartup`).

The Windows registry is modelled as an association list of string-valued
names (the `Run` key's values); registry open/read/write failures, which in
Go surface as non-nil errors from the `registry` package, are injected as
explicit boolean parameters. File-system existence checks are modelled by a
list of existing file paths, and the JSON decoder is abstracted by its
result (`Option CacheData`).
-/

namespace Autostart

/-- Go struct `CacheItem` (main.go:20): one startup entry of the JSON cache,
with registry value name, command string, and soft-enabled flag. -/
structure CacheItem where
  name : String
  value : String
  enabled : Bool
deriving DecidableEq, Repr

/-- Go struct `CacheData` (main.go:26): the persisted cache document, an
ordered list of items. -/
structure CacheData where
  items : List CacheItem
deriving DecidableEq, Repr

/-- The loop body of Go `findItemByName` (main.go:145): scan the item list,
returning the index and the (copied) item of the first name match, or
nothing when no item matches (Go returns `(-1, nil)`). -/
def findItemByNameAux (name : String) : List CacheItem → Option (Nat × CacheItem)
  | [] => none
  | it :: rest =>
    if it.name == name then some (0, it)
    else (findItemByNameAux name rest).map (fun p => (p.1 + 1, p.2))

/-- Go `findItemByName` (main.go:145). -/
def findItemByName (data : CacheData) (name : String) : Option (Nat × CacheItem) :=
  findItemByNameAux name data.items

/-- Go `addOrUpdateItem` (main.go:155): if an item with the name exists,
overwrite its `value` and `enabled` fields in place; otherwise append a new
item. -/
def addOrUpdateItem (data : CacheData) (name value : String) (enabled : Bool) : CacheData :=
  match findItemByName data name with
  | some (idx, it) =>
    ⟨data.items.set idx { it with value := value, enabled := enabled }⟩
  | none =>
    ⟨data.items ++ [{ name := name, value := value, enabled := enabled }]⟩

/-- Go `removeItem` (main.go:170): delete the item at the found index
(`append(items[:idx], items[idx+1:]...)`); no-op when the name is absent. -/
def removeItem (data : CacheData) (name : String) : CacheData :=
  match findItemByName data name with
  | some (idx, _) => ⟨data.items.take idx ++ data.items.drop (idx + 1)⟩
  | none => data

/-- Membership test of the `registryItems` map built in
`syncCacheFromRegistry` (main.go:77): does the snapshot contain the name? -/
def regContains (reg : List (String × String)) (name : String) : Bool :=
  reg.any (fun p => p.1 == name)

/-- The two-pass core of Go `syncCacheFromRegistry` (main.go:73-98), applied
to a registry snapshot `reg` (the `registryItems` map, as an association
list in iteration order) and a loaded cache.
Pass 1 (main.go:75-80): every cache item whose name is not in the snapshot
gets `enabled := false`.
Pass 2 (main.go:84-98): for every snapshot pair, update the matching cache
item's value and set it enabled, or append a fresh enabled item. -/
def syncCacheFromRegistry (reg : List (String × String)) (cache : CacheData) : CacheData :=
  let afterDisable : CacheData :=
    ⟨cache.items.map (fun it =>
      if regContains reg it.name then it else { it with enabled := false })⟩
  reg.foldl (fun c nv => addOrUpdateItem c nv.1 nv.2 true) afterDisable

/-- The state of the cache file as seen by Go `loadCache` (main.go:110):
either the file does not exist, or opening fails with another error, or it
opens and JSON decoding yields `parsed` (`none` when the content cannot be
parsed). -/
inductive FileRead where
  | absent
  | openError
  | content (parsed : Option CacheData)
deriving DecidableEq, Repr

/-- Go `loadCache` (main.go:110): a missing file yields the empty document;
any other open error or a JSON decode error is returned to the caller. -/
def loadCache : FileRead → Except Unit CacheData
  | .absent => .ok ⟨[]⟩
  | .openError => .error ()
  | .content (some data) => .ok data
  | .content none => .error ()

/-- The `registryItems` snapshot construction in `syncCacheFromRegistry`
(main.go:65-71): for each registry value name, `GetStringValue` either
yields a string or fails; only successful reads enter the map. `raw` pairs
each name from `ReadValueNames` with its read result. -/
def buildRegistrySnapshot (raw : List (String × Option String)) : List (String × String) :=
  raw.filterMap (fun p => match p.2 with
    | some v => some (p.1, v)
    | none => none)

/-- Go `syncCacheFromRegistry` (main.go:45) end to end: load the cache
(returning early, with no save, when loading fails), build the snapshot,
run the two passes, and save. `none` means the function returned without
saving; `some c` means document `c` was saved. -/
def syncStep (file : FileRead) (raw : List (String × Option String)) : Option CacheData :=
  match loadCache file with
  | .error _ => none
  | .ok cache => some (syncCacheFromRegistry (buildRegistrySnapshot raw) cache)

/-- The `Run` registry key: named string values, modelled as an association
list with distinct names. -/
structure Registry where
  values : List (String × String)
deriving DecidableEq, Repr

/-- Registry read (`GetStringValue`). -/
def Registry.getValue (r : Registry) (name : String) : Option String :=
  r.values.lookup name

/-- Registry write (`SetStringValue`): overwrite the value of an existing
name, or create the value. -/
def Registry.setValue (r : Registry) (name value : String) : Registry :=
  if (r.values.lookup name).isSome then
    ⟨r.values.map (fun p => if p.1 == name then (p.1, value) else p)⟩
  else
    ⟨r.values ++ [(name, value)]⟩

/-- Registry value deletion (`DeleteValue`), once known to exist. -/
def Registry.deleteValue (r : Registry) (name : String) : Registry :=
  ⟨r.values.filter (fun p => !(p.1 == name))⟩

/-- Quoting of a program path into a registry command
(`fmt.Sprintf` with a quoted verb, main.go:231 and main.go:690). -/
def quoteValue (s : String) : String :=
  "\"" ++ s ++ "\""

/-- Errors of Go `AddToStartup` (main.go:670): the path does not point to an
existing file, or the registry open/set step fails. -/
inductive AddError where
  | fileNotFound
  | registryWriteError
deriving DecidableEq, Repr

/-- Go `AddToStartup` (main.go:670): check the file exists (`os.Stat`),
then set the quoted absolute path as the registry value. `files` lists the
existing file paths (paths are taken as already absolute); `writeFails`
injects failure of the registry open/`SetStringValue` step. -/
def AddToStartup (files : List String) (writeFails : Bool) (reg : Registry)
    (exePath appName : String) : Except AddError Registry :=
  if files.contains exePath then
    if writeFails then .error .registryWriteError
    else .ok (reg.setValue appName (quoteValue exePath))
  else .error .fileNotFound

/-- Errors of Go `RemoveFromStartup` (main.go:700): the distinguished
not-found case (`registry.ErrNotExist`, reported as 启动项不存在) versus any
other registry error. -/
inductive RemoveError where
  | notFound
  | other
deriving DecidableEq, Repr

/-- Go `RemoveFromStartup` (main.go:700): open the key (`openFails` injects
failure), delete the named value, mapping `ErrNotExist` to the distinguished
not-found error. -/
def RemoveFromStartup (openFails : Bool) (reg : Registry) (appName : String) :
    Except RemoveError Registry :=
  if openFails then .error .other
  else if (reg.values.lookup appName).isSome then .ok (reg.deleteValue appName)
  else .error .notFound

/-- Go `AddCommandToStartup` (main.go:870): set the command verbatim as the
registry value; `setFails` injects failure of the open/set step. -/
def AddCommandToStartup (setFails : Bool) (reg : Registry) (command appName : String) :
    Except Unit Registry :=
  if setFails then .error ()
  else .ok (reg.setValue appName command)

/-- The mutation step of Go `handleAddToStartup` (main.go:262-274): call
`AddToStartup`; on error the cache is not touched, on success upsert the
quoted path into the cache as enabled and save. Returns the registry, the
cache document on disk, and whether the operation succeeded. -/
def handleAddToStartupStep (files : List String) (writeFails : Bool) (reg : Registry)
    (cache : CacheData) (exePath appName : String) : Registry × CacheData × Bool :=
  match AddToStartup files writeFails reg exePath appName with
  | .error _ => (reg, cache, false)
  | .ok reg1 => (reg1, addOrUpdateItem cache appName (quoteValue exePath) true, true)

/-- The mutation step of Go `handleRemoveFromStartup` (main.go:364-375):
call `RemoveFromStartup`; on success delete the item from the cache and
save, on error leave the cache alone. -/
def handleRemoveFromStartupStep (openFails : Bool) (reg : Registry) (cache : CacheData)
    (name : String) : Registry × CacheData × Bool :=
  match RemoveFromStartup openFails reg name with
  | .error _ => (reg, cache, false)
  | .ok reg1 => (reg1, removeItem cache name, true)

/-- The mutation step of Go `handleEnable` (main.go:934-944) for the
selected disabled item `(name, value)`: write the stored command back to
the registry; on success upsert the cache item as enabled and save, on
error leave the cache alone. -/
def handleEnableStep (setFails : Bool) (reg : Registry) (cache : CacheData)
    (name value : String) : Registry × CacheData × Bool :=
  match AddCommandToStartup setFails reg value name with
  | .error _ => (reg, cache, false)
  | .ok reg1 => (reg1, addOrUpdateItem cache name value true, true)

/-- The mutation step of Go `handleDisable` (main.go:978-988) for the
selected enabled item `(name, value)`: delete the registry value; on
success mark the cache item disabled (command kept) and save, on error
leave the cache alone. -/
def handleDisableStep (openFails : Bool) (reg : Registry) (cache : CacheData)
    (name value : String) : Registry × CacheData × Bool :=
  match RemoveFromStartup openFails reg name with
  | .error _ => (reg, cache, false)
  | .ok reg1 => (reg1, addOrUpdateItem cache name value false, true)

/-- Recursive form of `addOrUpdateItem` on the underlying item list: update
the first item whose name matches (keeping its name, as the Go code only
assigns the `Value` and `Enabled` fields), or append. Proved equal to
`addOrUpdateItem` below; used to structure the proofs. -/
def updateFirst (name value : String) (enabled : Bool) : List CacheItem → List CacheItem
  | [] => [{ name := name, value := value, enabled := enabled }]
  | it :: rest =>
    if it.name == name then { it with value := value, enabled := enabled } :: rest
    else it :: updateFirst name value enabled rest

/-- Recursive form of `removeItem` on the underlying item list: drop the
first item whose name matches. Proved equal to `removeItem` below. -/
def removeFirst (name : String) : List CacheItem → List CacheItem
  | [] => []
  | it :: rest => if it.name == name then rest else it :: removeFirst name rest

end Autostart

namespace Autostart

theorem findItemByNameAux_cons (name : String) (it : CacheItem) (rest : List CacheItem) :
    findItemByNameAux name (it :: rest) =
      if it.name == name then some (0, it)
      else (findItemByNameAux name rest).map (fun p => (p.1 + 1, p.2)) := rfl

theorem addOrUpdateItem_eq_updateFirst (l : List CacheItem) (n v : String) (e : Bool) :
    addOrUpdateItem ⟨l⟩ n v e = ⟨updateFirst n v e l⟩ := by
  induction l with
  | nil => rfl
  | cons it rest ih =>
    by_cases h : (it.name == n) = true
    · simp [addOrUpdateItem, findItemByName, findItemByNameAux_cons, h, updateFirst]
    · rw [Bool.not_eq_true] at h
      cases h2 : findItemByNameAux n rest with
      | none =>
        simp only [addOrUpdateItem, findItemByName, findItemByNameAux_cons, h, updateFirst] at ih ⊢
        simp only [h2, Option.map_none] at ih ⊢
        simp only [CacheData.mk.injEq] at ih
        simp [ih]
      | some p =>
        simp only [addOrUpdateItem, findItemByName, findItemByNameAux_cons, h, updateFirst] at ih ⊢
        simp only [h2, Option.map_some] at ih ⊢
        simp only [CacheData.mk.injEq] at ih
        simp [List.set_cons_succ, ih]

theorem addOrUpdateItem_eq (cache : CacheData) (n v : String) (e : Bool) :
    addOrUpdateItem cache n v e = ⟨updateFirst n v e cache.items⟩ := by
  cases cache with
  | mk items => exact addOrUpdateItem_eq_updateFirst items n v e

theorem removeItem_eq_removeFirst (l : List CacheItem) (n : String) :
    removeItem ⟨l⟩ n = ⟨removeFirst n l⟩ := by
  induction l with
  | nil => rfl
  | cons it rest ih =>
    by_cases h : (it.name == n) = true
    · simp [removeItem, findItemByName, findItemByNameAux_cons, h, removeFirst]
    · rw [Bool.not_eq_true] at h
      cases h2 : findItemByNameAux n rest with
      | none =>
        simp only [removeItem, findItemByName, findItemByNameAux_cons, h, removeFirst] at ih ⊢
        simp only [h2, Option.map_none] at ih ⊢
        simp only [CacheData.mk.injEq] at ih
        exact congrArg (fun x => ({ items := it :: x } : CacheData)) ih
      | some p =>
        simp only [removeItem, findItemByName, findItemByNameAux_cons, h, removeFirst] at ih ⊢
        simp only [h2, Option.map_some] at ih ⊢
        simp only [CacheData.mk.injEq] at ih
        exact congrArg (fun x => ({ items := it :: x } : CacheData)) ih

theorem removeItem_eq (cache : CacheData) (n : String) :
    removeItem cache n = ⟨removeFirst n cache.items⟩ := by
  cases cache with
  | mk items => exact removeItem_eq_removeFirst items n

theorem find?_updateFirst_self (n v : String) (e : Bool) (l : List CacheItem) :
    (updateFirst n v e l).find? (fun it => it.name == n) = some ⟨n, v, e⟩ := by
  induction l with
  | nil => simp [updateFirst, List.find?]
  | cons it rest ih =>
    by_cases h : (it.name == n) = true
    · have hn : it.name = n := by simpa using h
      simp [updateFirst, h, List.find?, hn]
    · rw [Bool.not_eq_true] at h
      simp [updateFirst, h, List.find?, ih]

theorem find?_updateFirst_ne (n v m : String) (e : Bool) (l : List CacheItem) (h : m ≠ n) :
    (updateFirst n v e l).find? (fun it => it.name == m) =
      l.find? (fun it => it.name == m) := by
  induction l with
  | nil =>
    have : (n == m) = false := by simpa using fun hnm => h hnm.symm
    simp [updateFirst, List.find?, this]
  | cons it rest ih =>
    by_cases hb : (it.name == n) = true
    · have hn : it.name = n := by simpa using hb
      have hm : (it.name == m) = false := by
        simp [hn]
        exact fun hnm => h hnm.symm
      simp [updateFirst, hb, List.find?, hm]
    · rw [Bool.not_eq_true] at hb
      by_cases hm : (it.name == m) = true
      · simp [updateFirst, hb, List.find?, hm]
      · rw [Bool.not_eq_true] at hm
        simp [updateFirst, hb, List.find?, hm, ih]

theorem mem_updateFirst_of_name_ne {x : CacheItem} (n v : String) (e : Bool)
    {l : List CacheItem} (hx : x ∈ l) (hne : x.name ≠ n) : x ∈ updateFirst n v e l := by
  induction l with
  | nil => cases hx
  | cons it rest ih =>
    rcases List.mem_cons.mp hx with rfl | hrest
    · have hb : (x.name == n) = false := by simpa using hne
      simp [updateFirst, hb]
    · by_cases hb : (it.name == n) = true
      · simp [updateFirst, hb, hrest]
      · rw [Bool.not_eq_true] at hb
        simp only [updateFirst, hb, Bool.false_eq_true, if_false, List.mem_cons]
        exact Or.inr (ih hrest)

theorem mem_updateFirst {x : CacheItem} {n v : String} {e : Bool} {l : List CacheItem}
    (hx : x ∈ updateFirst n v e l) :
    x ∈ l ∨ (x.name = n ∧ x.value = v ∧ x.enabled = e) := by
  induction l with
  | nil =>
    simp only [updateFirst, List.mem_singleton] at hx
    subst hx
    exact Or.inr ⟨rfl, rfl, rfl⟩
  | cons it rest ih =>
    by_cases hb : (it.name == n) = true
    · have hn : it.name = n := by simpa using hb
      simp only [updateFirst, hb, if_true, List.mem_cons] at hx
      rcases hx with rfl | hrest
      · exact Or.inr ⟨hn, rfl, rfl⟩
      · exact Or.inl (List.mem_cons.mpr (Or.inr hrest))
    · rw [Bool.not_eq_true] at hb
      simp only [updateFirst, hb, Bool.false_eq_true, if_false, List.mem_cons] at hx
      rcases hx with rfl | hrest
      · exact Or.inl (List.mem_cons.mpr (Or.inl rfl))
      · rcases ih hrest with hl | hr
        · exact Or.inl (List.mem_cons.mpr (Or.inr hl))
        · exact Or.inr hr

theorem names_updateFirst (n v : String) (e : Bool) (l : List CacheItem) :
    (updateFirst n v e l).map CacheItem.name =
      if l.any (fun it => it.name == n) then l.map CacheItem.name
      else l.map CacheItem.name ++ [n] := by
  induction l with
  | nil => simp [updateFirst]
  | cons it rest ih =>
    by_cases hb : (it.name == n) = true
    · simp [updateFirst, hb, List.any_cons]
    · rw [Bool.not_eq_true] at hb
      by_cases ha : rest.any (fun it => it.name == n) = true
      · simp [updateFirst, hb, List.any_cons, ha, ih]
      · rw [Bool.not_eq_true] at ha
        simp [updateFirst, hb, List.any_cons, ha, ih]

theorem nodup_names_updateFirst {l : List CacheItem} (n v : String) (e : Bool)
    (h : (l.map CacheItem.name).Nodup) :
    ((updateFirst n v e l).map CacheItem.name).Nodup := by
  rw [names_updateFirst]
  by_cases ha : l.any (fun it => it.name == n) = true
  · simpa [ha] using h
  · rw [Bool.not_eq_true] at ha
    have hnotin : n ∉ l.map CacheItem.name := by
      intro hmem
      rcases List.mem_map.mp hmem with ⟨it, hit, hname⟩
      rw [List.any_eq_false] at ha
      exact ha it hit (by simp [hname])
    simp only [ha, Bool.false_eq_true, if_false]
    rw [List.nodup_append]
    refine ⟨h, List.nodup_singleton n, ?_⟩
    intro a hal has
    rcases List.mem_singleton.mp has with rfl
    exact hnotin hal

theorem updateFirst_eq_self {l : List CacheItem} {n v : String} {e : Bool} {z : CacheItem}
    (hf : l.find? (fun it => it.name == n) = some z) (hv : z.value = v)
    (he : z.enabled = e) : updateFirst n v e l = l := by
  induction l with
  | nil => simp [List.find?] at hf
  | cons it rest ih =>
    by_cases hb : (it.name == n) = true
    · simp only [List.find?, hb, Option.some.injEq] at hf
      subst hf
      simp only [updateFirst, hb, if_true]
      rw [← hv, ← he]
    · rw [Bool.not_eq_true] at hb
      simp only [List.find?, hb] at hf
      simp only [updateFirst, hb, Bool.false_eq_true, if_false]
      rw [ih hf]

theorem filter_updateFirst_ne (n v m : String) (e : Bool) (l : List CacheItem) (h : m ≠ n) :
    (updateFirst n v e l).filter (fun it => it.name == m) =
      l.filter (fun it => it.name == m) := by
  induction l with
  | nil =>
    have : (n == m) = false := by simpa using fun hnm => h hnm.symm
    simp [updateFirst, this]
  | cons it rest ih =>
    by_cases hb : (it.name == n) = true
    · have hn : it.name = n := by simpa using hb
      have hm : (it.name == m) = false := by
        simp [hn]
        exact fun hnm => h hnm.symm
      simp [updateFirst, hb, List.filter_cons, hm]
    · rw [Bool.not_eq_true] at hb
      simp [updateFirst, hb, List.filter_cons, ih]

theorem removeFirst_sublist (n : String) (l : List CacheItem) :
    (removeFirst n l).Sublist l := by
  induction l with
  | nil => simp [removeFirst]
  | cons it rest ih =>
    by_cases hb : (it.name == n) = true
    · simp only [removeFirst, hb, if_true]
      exact List.sublist_cons_self it rest
    · rw [Bool.not_eq_true] at hb
      simp only [removeFirst, hb, Bool.false_eq_true, if_false]
      exact List.Sublist.cons₂ it ih

theorem removeFirst_no_name {l : List CacheItem} {n : String}
    (hnd : (l.map CacheItem.name).Nodup) :
    ∀ it ∈ removeFirst n l, it.name ≠ n := by
  induction l with
  | nil => intro it hit; cases hit
  | cons hd rest ih =>
    intro it hit
    by_cases hb : (hd.name == n) = true
    · have hn : hd.name = n := by simpa using hb
      simp only [removeFirst, hb, if_true] at hit
      simp only [List.map_cons, List.nodup_cons] at hnd
      intro heq
      apply hnd.1
      rw [hn] at hnd ⊢
      rw [← heq]
      exact List.mem_map.mpr ⟨it, hit, rfl⟩
    · rw [Bool.not_eq_true] at hb
      simp only [removeFirst, hb, Bool.false_eq_true, if_false, List.mem_cons] at hit
      simp only [List.map_cons, List.nodup_cons] at hnd
      rcases hit with rfl | hrest
      · intro heq
        rw [heq] at hb
        simp at hb
      · exact ih hnd.2 it hrest

theorem regContains_of_mem {reg : List (String × String)} {n v : String}
    (h : (n, v) ∈ reg) : regContains reg n = true := by
  rw [regContains, List.any_eq_true]
  exact ⟨(n, v), h, by simp⟩

theorem keys_ne_of_regContains_eq_false {reg : List (String × String)} {n : String}
    (h : regContains reg n = false) : ∀ p ∈ reg, p.1 ≠ n := by
  intro p hp heq
  rw [regContains, List.any_eq_false] at h
  exact h p hp (by simp [heq])

theorem foldl_add_find?_preserved (reg : List (String × String)) (c : CacheData) (m : String)
    (h : ∀ p ∈ reg, p.1 ≠ m) :
    (reg.foldl (fun c nv => addOrUpdateItem c nv.1 nv.2 true) c).items.find?
      (fun it => it.name == m) = c.items.find? (fun it => it.name == m) := by
  induction reg generalizing c with
  | nil => rfl
  | cons hd rest ih =>
    rw [List.foldl_cons]
    rw [ih _ (fun p hp => h p (List.mem_cons.mpr (Or.inr hp)))]
    rw [addOrUpdateItem_eq]
    exact find?_updateFirst_ne hd.1 hd.2 m true c.items
      (fun heq => h hd (List.mem_cons.mpr (Or.inl rfl)) heq.symm)

theorem foldl_add_find?_of_mem (reg : List (String × String)) (c : CacheData)
    (hnd : (reg.map Prod.fst).Nodup) {n v : String} (hmem : (n, v) ∈ reg) :
    (reg.foldl (fun c nv => addOrUpdateItem c nv.1 nv.2 true) c).items.find?
      (fun it => it.name == n) = some ⟨n, v, true⟩ := by
  induction reg generalizing c with
  | nil => cases hmem
  | cons hd rest ih =>
    rw [List.map_cons, List.nodup_cons] at hnd
    rw [List.foldl_cons]
    rcases List.mem_cons.mp hmem with heq | hrest
    · subst heq
      have hkeys : ∀ p ∈ rest, p.1 ≠ n := by
        intro p hp hpn
        exact hnd.1 (List.mem_map.mpr ⟨p, hp, hpn⟩)
      rw [foldl_add_find?_preserved rest _ n hkeys]
      rw [addOrUpdateItem_eq]
      exact find?_updateFirst_self n v true c.items
    · exact ih _ hnd.2 hrest

theorem foldl_add_mem_preserved (reg : List (String × String)) (c : CacheData) {x : CacheItem}
    (h : ∀ p ∈ reg, p.1 ≠ x.name) (hx : x ∈ c.items) :
    x ∈ (reg.foldl (fun c nv => addOrUpdateItem c nv.1 nv.2 true) c).items := by
  induction reg generalizing c with
  | nil => exact hx
  | cons hd rest ih =>
    rw [List.foldl_cons]
    refine ih _ (fun p hp => h p (List.mem_cons.mpr (Or.inr hp))) ?_
    rw [addOrUpdateItem_eq]
    exact mem_updateFirst_of_name_ne hd.1 hd.2 true hx
      (fun heq => h hd (List.mem_cons.mpr (Or.inl rfl)) heq.symm)

theorem foldl_add_enabled_invariant (REG reg : List (String × String)) (c : CacheData)
    (hsub : ∀ p ∈ reg, regContains REG p.1 = true)
    (hP : ∀ x ∈ c.items, regContains REG x.name = false → x.enabled = false) :
    ∀ x ∈ (reg.foldl (fun c nv => addOrUpdateItem c nv.1 nv.2 true) c).items,
      regContains REG x.name = false → x.enabled = false := by
  induction reg generalizing c with
  | nil => exact hP
  | cons hd rest ih =>
    rw [List.foldl_cons]
    refine ih _ (fun p hp => hsub p (List.mem_cons.mpr (Or.inr hp))) ?_
    intro x hx habs
    rw [addOrUpdateItem_eq] at hx
    rcases mem_updateFirst hx with hold | hnew
    · exact hP x hold habs
    · exfalso
      have := hsub hd (List.mem_cons.mpr (Or.inl rfl))
      rw [← hnew.1, habs] at this
      cases this

theorem foldl_add_id (reg : List (String × String)) (c : CacheData)
    (h : ∀ nv ∈ reg, addOrUpdateItem c nv.1 nv.2 true = c) :
    reg.foldl (fun c nv => addOrUpdateItem c nv.1 nv.2 true) c = c := by
  induction reg with
  | nil => rfl
  | cons hd rest ih =>
    rw [List.foldl_cons, h hd (List.mem_cons.mpr (Or.inl rfl))]
    exact ih (fun nv hnv => h nv (List.mem_cons.mpr (Or.inr hnv)))

theorem foldl_add_nodup_names (reg : List (String × String)) (c : CacheData)
    (h : (c.items.map CacheItem.name).Nodup) :
    ((reg.foldl (fun c nv => addOrUpdateItem c nv.1 nv.2 true) c).items.map
      CacheItem.name).Nodup := by
  induction reg generalizing c with
  | nil => exact h
  | cons hd rest ih =>
    rw [List.foldl_cons]
    apply ih
    rw [addOrUpdateItem_eq]
    exact nodup_names_updateFirst hd.1 hd.2 true h

theorem foldl_add_filter_preserved (reg : List (String × String)) (c : CacheData) (m : String)
    (h : ∀ p ∈ reg, p.1 ≠ m) :
    (reg.foldl (fun c nv => addOrUpdateItem c nv.1 nv.2 true) c).items.filter
      (fun it => it.name == m) = c.items.filter (fun it => it.name == m) := by
  induction reg generalizing c with
  | nil => rfl
  | cons hd rest ih =>
    rw [List.foldl_cons]
    rw [ih _ (fun p hp => h p (List.mem_cons.mpr (Or.inr hp)))]
    rw [addOrUpdateItem_eq]
    exact filter_updateFirst_ne hd.1 hd.2 m true c.items
      (fun heq => h hd (List.mem_cons.mpr (Or.inl rfl)) heq.symm)

theorem disablePass_names (reg : List (String × String)) (items : List CacheItem) :
    (items.map (fun it =>
      if regContains reg it.name then it else { it with enabled := false })).map
        CacheItem.name = items.map CacheItem.name := by
  rw [List.map_map]
  apply List.map_congr_left
  intro it _
  by_cases h : regContains reg it.name = true
  · simp [h]
  · rw [Bool.not_eq_true] at h
    simp [h]

theorem disablePass_mem {reg : List (String × String)} {items : List CacheItem}
    {it : CacheItem} (hit : it ∈ items) (habs : regContains reg it.name = false) :
    ({ it with enabled := false } : CacheItem) ∈ items.map (fun it =>
      if regContains reg it.name then it else { it with enabled := false }) := by
  apply List.mem_map.mpr
  exact ⟨it, hit, by simp [habs]⟩

theorem disablePass_enabled_false {reg : List (String × String)} {items : List CacheItem} :
    ∀ x ∈ items.map (fun it =>
      if regContains reg it.name then it else { it with enabled := false }),
      regContains reg x.name = false → x.enabled = false := by
  intro x hx habs
  rcases List.mem_map.mp hx with ⟨it, _, heq⟩
  by_cases h : regContains reg it.name = true
  · rw [if_pos h] at heq
    subst heq
    rw [h] at habs
    cases habs
  · rw [Bool.not_eq_true] at h
    rw [if_neg (by simp [h])] at heq
    subst heq
    rfl

theorem disablePass_id {reg : List (String × String)} {items : List CacheItem}
    (h : ∀ it ∈ items, regContains reg it.name = false → it.enabled = false) :
    items.map (fun it =>
      if regContains reg it.name then it else { it with enabled := false }) = items := by
  have : ∀ it ∈ items, (if regContains reg it.name then it
      else { it with enabled := false }) = id it := by
    intro it hit
    by_cases hc : regContains reg it.name = true
    · simp [hc]
    · rw [Bool.not_eq_true] at hc
      have he : it.enabled = false := h it hit hc
      simp only [hc, Bool.false_eq_true, if_false, id]
      cases it with
      | mk nm vl en => simp only at he; rw [he]
  rw [List.map_congr_left this, List.map_id]

theorem sync_find?_of_mem (reg : List (String × String)) (cache : CacheData)
    (hnd : (reg.map Prod.fst).Nodup) {n v : String} (hmem : (n, v) ∈ reg) :
    (syncCacheFromRegistry reg cache).items.find? (fun it => it.name == n)
      = some ⟨n, v, true⟩ := by
  simp only [syncCacheFromRegistry]
  exact foldl_add_find?_of_mem reg _ hnd hmem

theorem sync_mem_disabled (reg : List (String × String)) (cache : CacheData) {it : CacheItem}
    (hit : it ∈ cache.items) (habs : regContains reg it.name = false) :
    ({ it with enabled := false } : CacheItem) ∈ (syncCacheFromRegistry reg cache).items := by
  simp only [syncCacheFromRegistry]
  refine foldl_add_mem_preserved reg _ ?_ ?_
  · intro p hp
    exact keys_ne_of_regContains_eq_false habs p hp
  · exact disablePass_mem hit habs

theorem sync_enabled_false_of_not_contains (reg : List (String × String)) (cache : CacheData) :
    ∀ x ∈ (syncCacheFromRegistry reg cache).items,
      regContains reg x.name = false → x.enabled = false := by
  simp only [syncCacheFromRegistry]
  exact foldl_add_enabled_invariant reg reg _ (fun p hp => regContains_of_mem hp)
    disablePass_enabled_false

theorem sync_eq_self (reg : List (String × String)) (c : CacheData)
    (hP : ∀ x ∈ c.items, regContains reg x.name = false → x.enabled = false)
    (hfind : ∀ nv ∈ reg, c.items.find? (fun it => it.name == nv.1)
      = some ⟨nv.1, nv.2, true⟩) :
    syncCacheFromRegistry reg c = c := by
  cases c with
  | mk items =>
    simp only [syncCacheFromRegistry]
    rw [disablePass_id hP]
    apply foldl_add_id
    intro nv hnv
    rw [addOrUpdateItem_eq]
    rw [updateFirst_eq_self (hfind nv hnv) rfl rfl]

theorem sync_nodup_names (reg : List (String × String)) (cache : CacheData)
    (h : (cache.items.map CacheItem.name).Nodup) :
    ((syncCacheFromRegistry reg cache).items.map CacheItem.name).Nodup := by
  simp only [syncCacheFromRegistry]
  apply foldl_add_nodup_names
  show ((cache.items.map _).map CacheItem.name).Nodup
  rw [disablePass_names]
  exact h

theorem sync_filter_absent (reg : List (String × String)) (cache : CacheData) {n : String}
    (habs : regContains reg n = false) :
    (syncCacheFromRegistry reg cache).items.filter (fun it => it.name == n)
      = (cache.items.filter (fun it => it.name == n)).map
          (fun it => { it with enabled := false }) := by
  simp only [syncCacheFromRegistry]
  rw [foldl_add_filter_preserved _ _ _ (keys_ne_of_regContains_eq_false habs)]
  rw [List.filter_map]
  have hpred : ((fun it : CacheItem => it.name == n) ∘ (fun it : CacheItem =>
      if regContains reg it.name then it else { it with enabled := false }))
        = (fun it : CacheItem => it.name == n) := by
    funext it
    by_cases h : regContains reg it.name = true
    · simp [Function.comp, h]
    · rw [Bool.not_eq_true] at h
      simp [Function.comp, h]
  rw [hpred]
  apply List.map_congr_left
  intro it hit
  have hn : it.name = n := by
    have := List.mem_filter.mp hit
    simpa using this.2
  have hc : regContains reg it.name = false := by rw [hn]; exact habs
  simp [hc]

theorem lookup_filter_out (vals : List (String × String)) (n : String) :
    (vals.filter (fun p => !(p.1 == n))).lookup n = none := by
  induction vals with
  | nil => rfl
  | cons p rest ih =>
    obtain ⟨k, w⟩ := p
    by_cases h : (k == n) = true
    · simp only [List.filter_cons, h, Bool.not_true, Bool.false_eq_true, if_false]
      exact ih
    · rw [Bool.not_eq_true] at h
      have hn : (n == k) = false := by
        rw [beq_eq_false_iff_ne] at h ⊢
        exact fun heq => h heq.symm
      simp only [List.filter_cons, h, Bool.not_false, if_true]
      simp only [List.lookup_cons, hn]
      exact ih

theorem lookup_append_singleton (vals : List (String × String)) (n v : String)
    (h : vals.lookup n = none) : (vals ++ [(n, v)]).lookup n = some v := by
  induction vals with
  | nil => simp [List.lookup_cons]
  | cons p rest ih =>
    obtain ⟨k, w⟩ := p
    simp only [List.cons_append, List.lookup_cons] at h ⊢
    by_cases hk : (n == k) = true
    · rw [hk] at h
      simp at h
    · rw [Bool.not_eq_true] at hk
      rw [hk] at h ⊢
      exact ih h

theorem lookup_deleteValue_self (r : Registry) (n : String) :
    (r.deleteValue n).values.lookup n = none :=
  lookup_filter_out r.values n

theorem getValue_setValue_fresh (r : Registry) (n v : String)
    (h : r.values.lookup n = none) : (r.setValue n v).getValue n = some v := by
  simp only [Registry.setValue, Registry.getValue, h, Option.isSome_none,
    Bool.false_eq_true, if_false]
  exact lookup_append_singleton r.values n v h

theorem snapshot_not_contains_of_keys_ne (raw : List (String × Option String)) (n : String)
    (h : ∀ p ∈ raw, p.1 ≠ n) : regContains (buildRegistrySnapshot raw) n = false := by
  induction raw with
  | nil => rfl
  | cons p rest ih =>
    obtain ⟨k, o⟩ := p
    have hk : (k == n) = false := by
      simpa using h (k, o) (List.mem_cons.mpr (Or.inl rfl))
    have ihr := ih (fun q hq => h q (List.mem_cons.mpr (Or.inr hq)))
    cases o with
    | none =>
      simpa only [buildRegistrySnapshot, List.filterMap_cons] using ihr
    | some w =>
      simp only [buildRegistrySnapshot, List.filterMap_cons] at ihr ⊢
      simp only [regContains, List.any_cons, hk, Bool.false_or] at ihr ⊢
      exact ihr

theorem snapshot_not_contains_of_failed {raw : List (String × Option String)} {n : String}
    (hnd : (raw.map Prod.fst).Nodup) (hmem : (n, none) ∈ raw) :
    regContains (buildRegistrySnapshot raw) n = false := by
  induction raw with
  | nil => cases hmem
  | cons p rest ih =>
    rw [List.map_cons, List.nodup_cons] at hnd
    rcases List.mem_cons.mp hmem with heq | hrest
    · subst heq
      have hkeys : ∀ q ∈ rest, q.1 ≠ n := by
        intro q hq hqn
        exact hnd.1 (List.mem_map.mpr ⟨q, hq, hqn⟩)
      simpa only [buildRegistrySnapshot, List.filterMap_cons]
        using snapshot_not_contains_of_keys_ne rest n hkeys
    · obtain ⟨k, o⟩ := p
      have hk : (k == n) = false := by
        have hkn : n ∈ rest.map Prod.fst := List.mem_map.mpr ⟨(n, none), hrest, rfl⟩
        have : k ≠ n := fun heq => hnd.1 (heq ▸ hkn)
        simpa using this
      have ihr := ih hnd.2 hrest
      cases o with
      | none =>
        simpa only [buildRegistrySnapshot, List.filterMap_cons] using ihr
      | some w =>
        simp only [buildRegistrySnapshot, List.filterMap_cons] at ihr ⊢
        simp only [regContains, List.any_cons, hk, Bool.false_or] at ihr ⊢
        exact ihr

/-- C1: for every registry snapshot with distinct names and every cache
document, Sync yields a document in which every snapshot name maps (by the
cache's name lookup) to an item with enabled = true and command equal to the
registry raw value, and every cached item whose name is absent from the
snapshot appears with enabled = false and its command unchanged. -/
theorem sync_invariant_preservation (reg : List (String × String)) (cache : CacheData)
    (hnd : (reg.map Prod.fst).Nodup) :
    (∀ nv ∈ reg, (syncCacheFromRegistry reg cache).items.find?
        (fun it => it.name == nv.1) = some ⟨nv.1, nv.2, true⟩) ∧
    (∀ it ∈ cache.items, regContains reg it.name = false →
      ({ it with enabled := false } : CacheItem)
        ∈ (syncCacheFromRegistry reg cache).items) := by
  constructor
  · intro nv hnv
    exact sync_find?_of_mem reg cache hnd hnv
  · intro it hit habs
    exact sync_mem_disabled reg cache hit habs

/-- Witness for C1 at the spec's two scenarios: registry Foo with empty-ish
cache and cached Bar absent from the registry. -/
theorem sync_invariant_preservation_witness :
    (syncCacheFromRegistry [("Foo", "cmdF")] ⟨[⟨"Bar", "bar.exe", true⟩]⟩).items.find?
      (fun it => it.name == "Foo") = some ⟨"Foo", "cmdF", true⟩ ∧
    (⟨"Bar", "bar.exe", false⟩ : CacheItem) ∈
      (syncCacheFromRegistry [("Foo", "cmdF")] ⟨[⟨"Bar", "bar.exe", true⟩]⟩).items := by
  have h := sync_invariant_preservation [("Foo", "cmdF")] ⟨[⟨"Bar", "bar.exe", true⟩]⟩
    (by decide)
  exact ⟨h.1 ("Foo", "cmdF") (by decide), h.2 ⟨"Bar", "bar.exe", true⟩ (by decide) (by decide)⟩

/-- C2: Sync is idempotent: running the two-pass sync a second time against
the same registry snapshot returns the first run's document unchanged (same
items, same order, same flags and commands). -/
theorem sync_idempotent (reg : List (String × String)) (cache : CacheData)
    (hnd : (reg.map Prod.fst).Nodup) :
    syncCacheFromRegistry reg (syncCacheFromRegistry reg cache)
      = syncCacheFromRegistry reg cache := by
  apply sync_eq_self
  · exact sync_enabled_false_of_not_contains reg cache
  · intro nv hnv
    exact sync_find?_of_mem reg cache hnd hnv

/-- Witness for C2 on a concrete snapshot and cache. -/
theorem sync_idempotent_witness :
    syncCacheFromRegistry [("A", "1"), ("B", "2")]
        (syncCacheFromRegistry [("A", "1"), ("B", "2")]
          ⟨[⟨"A", "x", false⟩, ⟨"C", "y", true⟩]⟩)
      = syncCacheFromRegistry [("A", "1"), ("B", "2")]
          ⟨[⟨"A", "x", false⟩, ⟨"C", "y", true⟩]⟩ :=
  sync_idempotent [("A", "1"), ("B", "2")] ⟨[⟨"A", "x", false⟩, ⟨"C", "y", true⟩]⟩ (by decide)

/-- C3 counterexample: a cache file whose content cannot be parsed is NOT
treated as an empty document: loadCache returns an error, not the empty
document, and the sync wrapper returns early without saving (no self-heal
of the damaged file). -/
theorem loadCache_corrupt_aborts_cex :
    loadCache (FileRead.content none) = Except.error () ∧
    loadCache (FileRead.content none) ≠ Except.ok ⟨[]⟩ ∧
    syncStep (FileRead.content none) [("Foo", some "cmd")] = none :=
  ⟨rfl, fun h => Except.noConfusion h, rfl⟩

/-- C3 amended: an absent cache file is treated as the empty document and
Sync proceeds and saves; a file whose content cannot be parsed makes
loadCache return an error, and Sync then returns early without saving, so
the damaged file is not overwritten. -/
theorem loadCache_absent_empty_corrupt_error (raw : List (String × Option String)) :
    loadCache FileRead.absent = Except.ok ⟨[]⟩ ∧
    syncStep FileRead.absent raw
      = some (syncCacheFromRegistry (buildRegistrySnapshot raw) ⟨[]⟩) ∧
    loadCache (FileRead.content none) = Except.error () ∧
    syncStep (FileRead.content none) raw = none :=
  ⟨rfl, rfl, rfl, rfl⟩

/-- C4 counterexample: with an enabled cache item Foo and no Foo value in
the registry, Disable does not succeed: the registry delete reports the
not-found error, the handler takes its error branch, and the cache item
stays enabled = true (nothing is marked disabled). -/
theorem handleDisable_missing_registry_cex :
    RemoveFromStartup false ⟨[]⟩ "Foo" = Except.error RemoveError.notFound ∧
    handleDisableStep false ⟨[]⟩ ⟨[⟨"Foo", "foo.exe", true⟩]⟩ "Foo" "foo.exe"
      = (⟨[]⟩, ⟨[⟨"Foo", "foo.exe", true⟩]⟩, false) :=
  ⟨rfl, rfl⟩

/-- C4 amended: when the registry has no value named n, the registry
delete's NotFound outcome is not treated as already-consistent: Disable(n)
fails with the not-found error and leaves the cache document completely
unchanged (the item keeps enabled = true and its command). -/
theorem handleDisable_missing_registry (reg : Registry) (cache : CacheData) (n v : String)
    (habs : reg.values.lookup n = none) :
    RemoveFromStartup false reg n = Except.error RemoveError.notFound ∧
    handleDisableStep false reg cache n v = (reg, cache, false) := by
  have hrm : RemoveFromStartup false reg n = Except.error RemoveError.notFound := by
    simp [RemoveFromStartup, habs]
  exact ⟨hrm, by simp [handleDisableStep, hrm]⟩

/-- Witness for the amended C4. -/
theorem handleDisable_missing_registry_witness :
    RemoveFromStartup false ⟨[("Other", "o")]⟩ "Foo" = Except.error RemoveError.notFound ∧
    handleDisableStep false ⟨[("Other", "o")]⟩ ⟨[⟨"Foo", "f", true⟩]⟩ "Foo" "f"
      = (⟨[("Other", "o")]⟩, ⟨[⟨"Foo", "f", true⟩]⟩, false) :=
  handleDisable_missing_registry ⟨[("Other", "o")]⟩ ⟨[⟨"Foo", "f", true⟩]⟩ "Foo" "f"
    (by decide)

/-- C5: AddProgram fails with the file-not-found error when the path is not
an existing file; a registry write failure yields the registry-write error;
and whenever AddToStartup fails for any reason, the handler leaves the
registry and the cache document completely untouched (no phantom cache
entry). -/
theorem addToStartup_failure_no_cache_write (files : List String) (writeFails : Bool)
    (reg : Registry) (cache : CacheData) (path appName : String) :
    (files.contains path = false →
      AddToStartup files writeFails reg path appName
        = Except.error AddError.fileNotFound) ∧
    (files.contains path = true →
      AddToStartup files true reg path appName
        = Except.error AddError.registryWriteError) ∧
    (∀ e, AddToStartup files writeFails reg path appName = Except.error e →
      handleAddToStartupStep files writeFails reg cache path appName
        = (reg, cache, false)) := by
  refine ⟨?_, ?_, ?_⟩
  · intro h
    unfold AddToStartup
    rw [h]
    simp
  · intro h
    unfold AddToStartup
    rw [h]
    simp
  · intro e he
    simp [handleAddToStartupStep, he]

/-- Witness for C5: a missing file fails with file-not-found, and a failing
registry write on an existing file leaves registry and cache unchanged. -/
theorem addToStartup_failure_no_cache_write_witness :
    AddToStartup ["C:\\a.exe"] false ⟨[]⟩ "C:\\b.exe" "b"
      = Except.error AddError.fileNotFound ∧
    handleAddToStartupStep ["C:\\a.exe"] true ⟨[]⟩ ⟨[]⟩ "C:\\a.exe" "a"
      = (⟨[]⟩, ⟨[]⟩, false) := by
  have h1 := addToStartup_failure_no_cache_write ["C:\\a.exe"] false ⟨[]⟩ ⟨[]⟩ "C:\\b.exe" "b"
  have h2 := addToStartup_failure_no_cache_write ["C:\\a.exe"] true ⟨[]⟩ ⟨[]⟩ "C:\\a.exe" "a"
  exact ⟨h1.1 (by decide), h2.2.2 AddError.registryWriteError (h2.2.1 (by decide))⟩

/-- C6: if Enable's registry write fails, the handler returns the very same
registry and cache document, so no field of any item changes and the item's
enabled flag stays false. -/
theorem handleEnable_write_failure_keeps_cache (reg : Registry) (cache : CacheData)
    (n v : String) (hmem : (⟨n, v, false⟩ : CacheItem) ∈ cache.items) :
    handleEnableStep true reg cache n v = (reg, cache, false) := rfl

/-- Witness for C6. -/
theorem handleEnable_write_failure_keeps_cache_witness :
    handleEnableStep true ⟨[]⟩ ⟨[⟨"N", "v", false⟩]⟩ "N" "v"
      = (⟨[]⟩, ⟨[⟨"N", "v", false⟩]⟩, false) :=
  handleEnable_write_failure_keeps_cache ⟨[]⟩ ⟨[⟨"N", "v", false⟩]⟩ "N" "v" (by decide)

/-- C7: RemoveProgram fails with the distinguished not-found error when no
registry value with the name exists, and on success the handler deletes the
item from the cache document: with pairwise-distinct names, no item of that
name remains (true removal, not a disabled marker). -/
theorem removeFromStartup_notfound_and_removal (reg : Registry) (cache : CacheData)
    (n : String) (hnd : (cache.items.map CacheItem.name).Nodup) :
    (reg.values.lookup n = none →
      RemoveFromStartup false reg n = Except.error RemoveError.notFound) ∧
    ((reg.values.lookup n).isSome = true →
      handleRemoveFromStartupStep false reg cache n
        = (reg.deleteValue n, removeItem cache n, true) ∧
      ∀ it ∈ (removeItem cache n).items, it.name ≠ n) := by
  constructor
  · intro habs
    simp [RemoveFromStartup, habs]
  · intro hsome
    have hok : RemoveFromStartup false reg n = Except.ok (reg.deleteValue n) := by
      simp [RemoveFromStartup, hsome]
    refine ⟨by simp [handleRemoveFromStartupStep, hok], ?_⟩
    rw [removeItem_eq]
    exact removeFirst_no_name hnd

/-- Witness for C7: not-found on an empty registry; successful removal of a
cached item named Y. -/
theorem removeFromStartup_notfound_and_removal_witness :
    RemoveFromStartup false ⟨[]⟩ "X" = Except.error RemoveError.notFound ∧
    handleRemoveFromStartupStep false ⟨[("Y", "cmd")]⟩ ⟨[⟨"Y", "cmd", true⟩]⟩ "Y"
      = (Registry.deleteValue ⟨[("Y", "cmd")]⟩ "Y",
          removeItem ⟨[⟨"Y", "cmd", true⟩]⟩ "Y", true) := by
  have h1 := removeFromStartup_notfound_and_removal ⟨[]⟩ ⟨[]⟩ "X" (by decide)
  have h2 := removeFromStartup_notfound_and_removal ⟨[("Y", "cmd")]⟩
    ⟨[⟨"Y", "cmd", true⟩]⟩ "Y" (by decide)
  exact ⟨h1.1 rfl, (h2.2 (by decide)).1⟩

/-- C8: Disable followed by Enable is a round trip: for an item that is
enabled in the cache with command v and present in the registry with value
v, both handler steps succeed, the final registry value for the name is
exactly v, and the cache item ends with enabled = true and command v. -/
theorem disable_enable_roundtrip (reg : Registry) (cache : CacheData) (n v : String)
    (hmem : (⟨n, v, true⟩ : CacheItem) ∈ cache.items)
    (hreg : reg.values.lookup n = some v) :
    ∃ reg1 cache1, handleDisableStep false reg cache n v = (reg1, cache1, true) ∧
      ∃ reg2 cache2, handleEnableStep false reg1 cache1 n v = (reg2, cache2, true) ∧
        reg2.getValue n = some v ∧
        cache2.items.find? (fun it => it.name == n) = some ⟨n, v, true⟩ := by
  have hsome : (reg.values.lookup n).isSome = true := by rw [hreg]; rfl
  have hok : RemoveFromStartup false reg n = Except.ok (reg.deleteValue n) := by
    simp [RemoveFromStartup, hsome]
  refine ⟨reg.deleteValue n, addOrUpdateItem cache n v false,
    by simp [handleDisableStep, hok], ?_⟩
  refine ⟨(reg.deleteValue n).setValue n v,
    addOrUpdateItem (addOrUpdateItem cache n v false) n v true,
    by simp [handleEnableStep, AddCommandToStartup], ?_, ?_⟩
  · exact getValue_setValue_fresh _ n v (lookup_deleteValue_self reg n)
  · rw [addOrUpdateItem_eq]
    exact find?_updateFirst_self n v true _

/-- Witness for C8. -/
theorem disable_enable_roundtrip_witness :
    ∃ reg1 cache1,
      handleDisableStep false ⟨[("N", "v")]⟩ ⟨[⟨"N", "v", true⟩]⟩ "N" "v"
        = (reg1, cache1, true) ∧
      ∃ reg2 cache2, handleEnableStep false reg1 cache1 "N" "v" = (reg2, cache2, true) ∧
        reg2.getValue "N" = some "v" ∧
        cache2.items.find? (fun it => it.name == "N") = some ⟨"N", "v", true⟩ :=
  disable_enable_roundtrip ⟨[("N", "v")]⟩ ⟨[⟨"N", "v", true⟩]⟩ "N" "v" (by decide) (by decide)

/-- C9: name uniqueness is an invariant: starting from a cache with
pairwise-distinct item names, Sync, the add/upsert helper, the remove
helper, and each handler's mutation step all produce caches whose item
names stay pairwise distinct. -/
theorem mutations_preserve_name_uniqueness (reg : List (String × String)) (r : Registry)
    (files : List String) (b : Bool) (cache : CacheData) (n v path : String)
    (hnd : (cache.items.map CacheItem.name).Nodup) :
    ((syncCacheFromRegistry reg cache).items.map CacheItem.name).Nodup ∧
    ((addOrUpdateItem cache n v b).items.map CacheItem.name).Nodup ∧
    ((removeItem cache n).items.map CacheItem.name).Nodup ∧
    (((handleAddToStartupStep files b r cache path n).2.1).items.map CacheItem.name).Nodup ∧
    (((handleEnableStep b r cache n v).2.1).items.map CacheItem.name).Nodup ∧
    (((handleDisableStep b r cache n v).2.1).items.map CacheItem.name).Nodup ∧
    (((handleRemoveFromStartupStep b r cache n).2.1).items.map CacheItem.name).Nodup := by
  have hadd : ∀ (nm v2 : String) (e : Bool),
      ((addOrUpdateItem cache nm v2 e).items.map CacheItem.name).Nodup := by
    intro nm v2 e
    rw [addOrUpdateItem_eq]
    exact nodup_names_updateFirst nm v2 e hnd
  have hrem : ((removeItem cache n).items.map CacheItem.name).Nodup := by
    rw [removeItem_eq]
    exact List.Nodup.sublist ((removeFirst_sublist n cache.items).map CacheItem.name) hnd
  refine ⟨sync_nodup_names reg cache hnd, hadd n v b, hrem, ?_, ?_, ?_, ?_⟩
  · cases h : AddToStartup files b r path n with
    | error e => simpa [handleAddToStartupStep, h] using hnd
    | ok reg1 => simpa [handleAddToStartupStep, h] using hadd n (quoteValue path) true
  · cases h : AddCommandToStartup b r v n with
    | error e => simpa [handleEnableStep, h] using hnd
    | ok reg1 => simpa [handleEnableStep, h] using hadd n v true
  · cases h : RemoveFromStartup b r n with
    | error e => simpa [handleDisableStep, h] using hnd
    | ok reg1 => simpa [handleDisableStep, h] using hadd n v false
  · cases h : RemoveFromStartup b r n with
    | error e => simpa [handleRemoveFromStartupStep, h] using hnd
    | ok reg1 => simpa [handleRemoveFromStartupStep, h] using hrem

/-- Witness for C9 on a concrete two-item cache. -/
theorem mutations_preserve_name_uniqueness_witness :
    ((syncCacheFromRegistry [("A", "1")]
      ⟨[⟨"A", "x", true⟩, ⟨"B", "y", false⟩]⟩).items.map CacheItem.name).Nodup ∧
    ((addOrUpdateItem ⟨[⟨"A", "x", true⟩, ⟨"B", "y", false⟩]⟩ "A" "z" true).items.map
      CacheItem.name).Nodup := by
  have h := mutations_preserve_name_uniqueness [("A", "1")] ⟨[]⟩ [] false
    ⟨[⟨"A", "x", true⟩, ⟨"B", "y", false⟩]⟩ "A" "z" "p" (by decide)
  have h2 := mutations_preserve_name_uniqueness [("A", "1")] ⟨[]⟩ [] true
    ⟨[⟨"A", "x", true⟩, ⟨"B", "y", false⟩]⟩ "A" "z" "p" (by decide)
  exact ⟨h.1, h2.2.1⟩

/-- C10: during Sync, a registry name whose string value cannot be read is
excluded from the snapshot and treated exactly like an absent name: the
sync completes and saves, the items with that name are exactly the
previously cached ones with enabled = false and commands unchanged, and no
new item with that name is appended. -/
theorem sync_unreadable_value_like_absent (file : FileRead) (cache : CacheData)
    (raw : List (String × Option String)) (n : String)
    (hnd : (raw.map Prod.fst).Nodup) (hmem : (n, none) ∈ raw)
    (hload : loadCache file = Except.ok cache) :
    regContains (buildRegistrySnapshot raw) n = false ∧
    syncStep file raw = some (syncCacheFromRegistry (buildRegistrySnapshot raw) cache) ∧
    (syncCacheFromRegistry (buildRegistrySnapshot raw) cache).items.filter
        (fun it => it.name == n)
      = (cache.items.filter (fun it => it.name == n)).map
          (fun it => { it with enabled := false }) := by
  have habs := snapshot_not_contains_of_failed hnd hmem
  refine ⟨habs, ?_, sync_filter_absent _ cache habs⟩
  simp [syncStep, hload]

/-- Witness for C10: name Bad fails its value read; the cached Bad item is
disabled in place and nothing new is appended for it. -/
theorem sync_unreadable_value_like_absent_witness :
    regContains (buildRegistrySnapshot [("A", some "1"), ("Bad", none)]) "Bad" = false ∧
    syncStep (FileRead.content (some ⟨[⟨"Bad", "old", true⟩]⟩))
        [("A", some "1"), ("Bad", none)]
      = some (syncCacheFromRegistry
          (buildRegistrySnapshot [("A", some "1"), ("Bad", none)])
          ⟨[⟨"Bad", "old", true⟩]⟩) ∧
    (syncCacheFromRegistry (buildRegistrySnapshot [("A", some "1"), ("Bad", none)])
        ⟨[⟨"Bad", "old", true⟩]⟩).items.filter (fun it => it.name == "Bad")
      = (([⟨"Bad", "old", true⟩] : List CacheItem).filter
          (fun it => it.name == "Bad")).map (fun it => { it with enabled := false }) :=
  sync_unreadable_value_like_absent (FileRead.content (some ⟨[⟨"Bad", "old", true⟩]⟩))
    ⟨[⟨"Bad", "old", true⟩]⟩ [("A", some "1"), ("Bad", none)] "Bad"
    (by decide) (by decide) rfl

end Autostart
